import Mathlib

/-!
Verification of the multi-photo scan splitter (`scan_spiltter.py`).

This file shallowly embeds the photo-detection pipeline: quadrilateral
boxes, the rasterized IoU (`iou_quads` / `quad_to_mask`), greedy
non-maximum suppression (`nms_quads`), the projection splitter
(`_split_component_by_projection`), both detectors, the orientation
search (`try_all_orientations`), perspective-warp gating
(`warp_perspective_from_box`), photo extraction ordering
(`extract_photos_from_scan`) and border cropping (`auto_crop_border`).

Modelling conventions:
- Python floats are modelled as exact rationals (`ℚ`).  All float
  comparisons in the source compare integer-valued or small rational
  quantities far from the rounding granularity of binary doubles, so the
  exact-rational model agrees with the float semantics at every
  comparison that matters to the claims.
- `numpy` integer arrays are modelled as `ℕ`-valued functions; machine
  integers never overflow here (sums are bounded by `255 · 2048²`).
- OpenCV primitives (`cv2.fillPoly`, `cv2.findContours`,
  `cv2.contourArea`, `cv2.minAreaRect`, `cv2.boxPoints`,
  `cv2.watershed`, rotations, the perspective warp) are external
  library calls.  Pure geometric ones (`fillPoly` on a convex
  quadrilateral, `contourArea` of an integer quadrilateral) are modelled
  from their documented semantics; the image-analysis ones are treated
  as parameters of the embedding, so every theorem quantifies over their
  behaviour.
-/

namespace ScanSplitter

/-- Planar point with exact rational coordinates (models a float32 pair). -/
abbrev Pt := ℚ × ℚ

/-- An oriented quadrilateral box, stored as its four corner points, in the
order produced by `cv2.boxPoints` (a 4×2 float array in the source). -/
structure Quad where
  p0 : Pt
  p1 : Pt
  p2 : Pt
  p3 : Pt
deriving DecidableEq

instance : Inhabited Quad := ⟨⟨(0, 0), (0, 0), (0, 0), (0, 0)⟩⟩

/-- Truncation toward zero, the semantics of `numpy`'s `astype(np.int32)`
cast applied to the (never overflowing) coordinates in the source. -/
def truncQ (x : ℚ) : ℤ := if 0 ≤ x then ⌊x⌋ else ⌈x⌉

/-- Truncate both coordinates of a point. -/
def truncPt (p : Pt) : ℤ × ℤ := (truncQ p.1, truncQ p.2)

/-- Twice the signed area contribution used in cross-product orientation
tests: the z-component of `(a - o) × (b - o)`. -/
def crossZ (o a b : ℤ × ℤ) : ℤ :=
  (a.1 - o.1) * (b.2 - o.2) - (a.2 - o.2) * (b.1 - o.1)

/-- Membership of a point in the closed region bounded by the quadrilateral
`q0 q1 q2 q3`: the point lies on one common side (or on the boundary) of
all four directed edges.  For the convex quadrilaterals produced by
`cv2.boxPoints` this is exactly the filled region of `cv2.fillPoly`. -/
def insideZ (q0 q1 q2 q3 p : ℤ × ℤ) : Bool :=
  (decide (0 ≤ crossZ q0 q1 p) && decide (0 ≤ crossZ q1 q2 p) &&
   decide (0 ≤ crossZ q2 q3 p) && decide (0 ≤ crossZ q3 q0 p)) ||
  (decide (crossZ q0 q1 p ≤ 0) && decide (crossZ q1 q2 p ≤ 0) &&
   decide (crossZ q2 q3 p ≤ 0) && decide (crossZ q3 q0 p ≤ 0))

/-- Side length of the fixed rasterization grid (`S = 2048` in `iou_quads`). -/
def gridS : ℕ := 2048

/-- All pixel coordinates `(x, y)` of the fixed `S × S` rasterization grid. -/
def gridPts : List (ℕ × ℕ) :=
  (List.range gridS).flatMap (fun y => (List.range gridS).map (fun x => (x, y)))

/-- Model of `quad_to_mask`: the pixel `(x, y)` of the `S × S` grid is set
iff it lies in the filled polygon of the integer-truncated quadrilateral
(`cv2.fillPoly` on `box.astype(np.int32)`). -/
def quad_to_mask (q : Quad) (p : ℕ × ℕ) : Bool :=
  insideZ (truncPt q.p0) (truncPt q.p1) (truncPt q.p2) (truncPt q.p3)
    ((p.1 : ℤ), (p.2 : ℤ))

/-- Scale the coordinates of a quadrilateral (`a2[:,0] *= sx; a2[:,1] *= sy`). -/
def scaleQuad (sx sy : ℚ) (q : Quad) : Quad :=
  ⟨(q.p0.1 * sx, q.p0.2 * sy), (q.p1.1 * sx, q.p1.2 * sy),
   (q.p2.1 * sx, q.p2.2 * sy), (q.p3.1 * sx, q.p3.2 * sy)⟩

/-- The quadrilateral mapped onto the fixed grid: `sx = S / W`, `sy = S / H`
for an image shape `(H, W)`, exactly as in `iou_quads`. -/
def scaledQuad (shape : ℕ × ℕ) (q : Quad) : Quad :=
  scaleQuad ((gridS : ℚ) / (shape.2 : ℚ)) ((gridS : ℚ) / (shape.1 : ℚ)) q

/-- Number of grid pixels filled by both rasterized quadrilaterals
(`np.logical_and(ma, mb).sum()`). -/
def interCount (shape : ℕ × ℕ) (a b : Quad) : ℕ :=
  gridPts.countP (fun p =>
    quad_to_mask (scaledQuad shape a) p && quad_to_mask (scaledQuad shape b) p)

/-- Number of grid pixels filled by at least one rasterized quadrilateral
(`np.logical_or(ma, mb).sum()`). -/
def unionCount (shape : ℕ × ℕ) (a b : Quad) : ℕ :=
  gridPts.countP (fun p =>
    quad_to_mask (scaledQuad shape a) p || quad_to_mask (scaledQuad shape b) p)

/-- Model of `iou_quads`: rasterize both quadrilaterals onto the fixed
`2048 × 2048` grid and compare overlap against union; `0.0` when the
union is empty. -/
def iou_quads (a b : Quad) (shape : ℕ × ℕ) : ℚ :=
  if unionCount shape a b = 0 then 0
  else (interCount shape a b : ℚ) / (unionCount shape a b : ℚ)

/-- Model of `cv2.contourArea(b.astype(np.int32))`: half the absolute value
of the shoelace sum over the truncated integer corners. -/
def quadAreaCv (q : Quad) : ℚ :=
  let z0 := truncPt q.p0
  let z1 := truncPt q.p1
  let z2 := truncPt q.p2
  let z3 := truncPt q.p3
  ((z0.1 * z1.2 - z1.1 * z0.2 + z1.1 * z2.2 - z2.1 * z1.2 +
    z2.1 * z3.2 - z3.1 * z2.2 + z3.1 * z0.2 - z0.1 * z3.2).natAbs : ℚ) / 2

/-- Comparison of boxes by their `cv2.contourArea` value. -/
def areaLE (a b : Quad) : Prop := quadAreaCv a ≤ quadAreaCv b

instance : DecidableRel areaLE := fun a b => by unfold areaLE; infer_instance

instance : IsTotal Quad areaLE := ⟨fun _ _ => le_total _ _⟩

instance : IsTrans Quad areaLE := ⟨fun _ _ _ => le_trans⟩

/-- The candidates in the order `nms_quads` processes them: descending
contour area (`np.argsort(areas)[::-1]`; a stable ascending sort followed
by reversal — `numpy`'s tie order within equal areas is unspecified). -/
def nmsOrder (boxes : List Quad) : List Quad :=
  (boxes.insertionSort areaLE).reverse

/-- The greedy suppression loop of `nms_quads`: a candidate is appended to
`kept` iff its IoU (on the hard-coded `(1000, 1000)` shape) against every
previously kept box does not exceed the threshold. -/
def nmsKeep (t : ℚ) : List Quad → List Quad → List Quad
  | [], kept => kept
  | b :: rest, kept =>
    if kept.all (fun j => decide (iou_quads b j (1000, 1000) ≤ t)) then
      nmsKeep t rest (kept ++ [b])
    else
      nmsKeep t rest kept

/-- Model of `nms_quads`: process candidates in descending contour-area
order, keeping a candidate iff it overlaps no previously kept box by more
than `t`. -/
def nms_quads (boxes : List Quad) (t : ℚ) : List Quad :=
  nmsKeep t (nmsOrder boxes) []

/-- Sum of the two coordinates (`pts.sum(axis=1)` in `order_box_points`). -/
def sumXY (p : Pt) : ℚ := p.1 + p.2

/-- Difference `y - x` (`np.diff(pts, axis=1)` in `order_box_points`). -/
def diffYX (p : Pt) : ℚ := p.2 - p.1

/-- The corner minimizing `f`, earliest corner on ties (`np.argmin`). -/
def pickMin (f : Pt → ℚ) (q : Quad) : Pt :=
  [q.p1, q.p2, q.p3].foldl (fun acc x => if f x < f acc then x else acc) q.p0

/-- The corner maximizing `f`, earliest corner on ties (`np.argmax`). -/
def pickMax (f : Pt → ℚ) (q : Quad) : Pt :=
  [q.p1, q.p2, q.p3].foldl (fun acc x => if f acc < f x then x else acc) q.p0

/-- Model of `order_box_points`: order the four corners as
(top-left, top-right, bottom-right, bottom-left) by coordinate sum
(min → tl, max → br) and difference `y - x` (min → tr, max → bl). -/
def order_box_points (q : Quad) : Quad :=
  ⟨pickMin sumXY q, pickMin diffYX q, pickMax sumXY q, pickMax diffYX q⟩

/-- Squared Euclidean distance; `np.hypot(..) ** 2` of the source.  The
source compares `int(max(hypot ..))` against `20`; since lengths are
nonnegative this holds iff the squared length comparison against `400`
holds, which keeps the embedding inside exact rational arithmetic. -/
def sqDist (p q : Pt) : ℚ := (p.1 - q.1) ^ 2 + (p.2 - q.2) ^ 2

/-- Model of `warp_perspective_from_box`.  The deskewed bitmap produced by
`cv2.getPerspectiveTransform` / `cv2.warpPerspective` is abstracted by its
target size, recorded as the squared target width and height
(`max(wA, wB)²`, `max(hA, hB)²`).  The source returns `None` iff
`int(max(wA, wB)) < 20 or int(max(hA, hB)) < 20`, which (lengths being
nonnegative, `int` truncating toward zero) holds iff one of the squared
maxima is `< 400`. -/
def warp_perspective_from_box (q : Quad) : Option (ℚ × ℚ) :=
  let r := order_box_points q
  let wA2 := sqDist r.p2 r.p3
  let wB2 := sqDist r.p1 r.p0
  let hA2 := sqDist r.p1 r.p2
  let hB2 := sqDist r.p0 r.p3
  if max wA2 wB2 < 400 ∨ max hA2 hB2 < 400 then none
  else some (max wA2 wB2, max hA2 hB2)

/-- Spec-side predicate for C4, following the spec's words: order the
corners, take the target width as the larger of the top-edge and
bottom-edge lengths and the target height as the larger of the left-edge
and right-edge lengths; both must be at least `20` px.  Stated on squared
lengths (`20² = 400`), which is equivalent for nonnegative lengths. -/
def boxDimsOK (q : Quad) : Prop :=
  let r := order_box_points q
  (20 : ℚ) ^ 2 ≤ max (sqDist r.p0 r.p1) (sqDist r.p3 r.p2) ∧
  (20 : ℚ) ^ 2 ≤ max (sqDist r.p0 r.p3) (sqDist r.p1 r.p2)

instance (q : Quad) : Decidable (boxDimsOK q) := by unfold boxDimsOK; infer_instance

/-- Centroid sort key of `extract_photos_from_scan`:
`y * 1e5 + x` over the mean of the four corners. -/
def keyQ (q : Quad) : ℚ :=
  100000 * ((q.p0.2 + q.p1.2 + q.p2.2 + q.p3.2) / 4) +
    (q.p0.1 + q.p1.1 + q.p2.1 + q.p3.1) / 4

/-- Comparison of boxes by the centroid reading-order key. -/
def keyLE (a b : Quad) : Prop := keyQ a ≤ keyQ b

instance : DecidableRel keyLE := fun a b => by unfold keyLE; infer_instance

instance : IsTotal Quad keyLE := ⟨fun _ _ => le_total _ _⟩

instance : IsTrans Quad keyLE := ⟨fun _ _ _ => le_trans⟩

/-- The boxes in the order the extraction loop visits them: ascending
centroid key (`np.argsort([y*1e5 + x ...])`; `numpy`'s default sort is an
unstable introsort, so the order within equal keys is unspecified and a
stable sort is a faithful choice). -/
def orderedBoxes (boxes : List Quad) : List Quad := boxes.insertionSort keyLE

/-- The extraction loop of `extract_photos_from_scan`: visit the boxes in
centroid order, warp each, skip the `None`s, border-crop the rest
(`auto_crop_border` acts one-to-one on warped bitmaps and is abstracted
by `cropF`). -/
def extract_photos {Photo : Type} (cropF : ℚ × ℚ → Photo) (boxes : List Quad) :
    List Photo :=
  (orderedBoxes boxes).filterMap (fun b => (warp_perspective_from_box b).map cropF)

/-- The source boxes that actually produce a photo, in emission order. -/
def emittedSources (boxes : List Quad) : List Quad :=
  (orderedBoxes boxes).filter (fun b => (warp_perspective_from_box b).isSome)

/-- A binary image: `h × w` grid of boolean pixels (`0`/`255` bytes in the
source). -/
structure Mask where
  h : ℕ
  w : ℕ
  px : ℕ → ℕ → Bool

/-- Column sum of the background complement:
`(255 - comp_mask).sum(axis=0)` at column `c`. -/
def colSum (m : Mask) (c : ℕ) : ℕ :=
  255 * ((List.range m.h).countP (fun r => !m.px r c))

/-- Row sum of the background complement:
`(255 - comp_mask).sum(axis=1)` at row `r`. -/
def rowSum (m : Mask) (r : ℕ) : ℕ :=
  255 * ((List.range m.w).countP (fun c => !m.px r c))

/-- All column sums, indexed left to right. -/
def colSums (m : Mask) : List ℕ := (List.range m.w).map (colSum m)

/-- All row sums, indexed top to bottom. -/
def rowSums (m : Mask) : List ℕ := (List.range m.h).map (rowSum m)

/-- Minimum of a list of naturals (`0` on the empty list, which the source
never queries). -/
def minN : List ℕ → ℕ
  | [] => 0
  | x :: xs => xs.foldl min x

/-- Maximum of a list of naturals (`ndarray.max()`; `0` on the empty list,
which the source never queries). -/
def maxN : List ℕ → ℕ
  | [] => 0
  | x :: xs => xs.foldl max x

/-- Model of `np.argmin`: index of the first occurrence of the minimum. -/
def argminN (l : List ℕ) : ℕ := l.indexOf (minN l)

/-- Left slice `comp_mask[:, :v]`. -/
def leftMask (m : Mask) (v : ℕ) : Mask := ⟨m.h, v, m.px⟩

/-- Right slice `comp_mask[:, v:]`. -/
def rightMask (m : Mask) (v : ℕ) : Mask :=
  ⟨m.h, m.w - v, fun r c => m.px r (c + v)⟩

/-- Top slice `comp_mask[:hh, :]`. -/
def topMask (m : Mask) (hh : ℕ) : Mask := ⟨hh, m.w, m.px⟩

/-- Bottom slice `comp_mask[hh:, :]`. -/
def botMask (m : Mask) (hh : ℕ) : Mask :=
  ⟨m.h - hh, m.w, fun r c => m.px (r + hh) c⟩

/-- Shift the x-coordinates of a box (`box[:, 0] += xshift`). -/
def shiftQuadX (s : ℚ) (q : Quad) : Quad :=
  ⟨(q.p0.1 + s, q.p0.2), (q.p1.1 + s, q.p1.2),
   (q.p2.1 + s, q.p2.2), (q.p3.1 + s, q.p3.2)⟩

/-- Shift the y-coordinates of a box (`box[:, 1] += yshift`). -/
def shiftQuadY (s : ℚ) (q : Quad) : Quad :=
  ⟨(q.p0.1, q.p0.2 + s), (q.p1.1, q.p1.2 + s),
   (q.p2.1, q.p2.2 + s), (q.p3.1, q.p3.2 + s)⟩

/-- The OpenCV contour primitives the detectors consume, as parameters of
the embedding: `cv2.findContours` (external contours of a mask),
`cv2.contourArea`, the side lengths of `cv2.minAreaRect`, and
`cv2.boxPoints` of that rectangle. -/
structure CvOps (Cnt : Type) where
  contours : Mask → List Cnt
  area : Cnt → ℚ
  rectWH : Cnt → ℚ × ℚ
  boxPts : Cnt → Quad

/-- Model of Python's `max(cnts, key=cv2.contourArea)`: the earliest
contour of maximal area (`none` on an empty list, where the source
`continue`s before calling `max`). -/
def maxByArea {Cnt : Type} (ops : CvOps Cnt) : List Cnt → Option Cnt
  | [] => none
  | c :: cs =>
    some (cs.foldl (fun acc x => if ops.area acc < ops.area x then x else acc) c)

/-- One direction of the projection split: for each piece (with its
coordinate shift), find the largest contour, reject it when its area is
below `5000`, otherwise append the shifted `minAreaRect` box — the
`for m, xshift in ...` loop body of `_split_component_by_projection`. -/
def pieceBoxes {Cnt : Type} (ops : CvOps Cnt) (shift : ℚ → Quad → Quad)
    (pieces : List (Mask × ℚ)) : List Quad :=
  pieces.foldl (fun acc piece =>
    match maxByArea ops (ops.contours piece.1) with
    | none => acc
    | some c =>
      if ops.area c < 5000 then acc else acc ++ [shift piece.2 (ops.boxPts c)]) []

/-- Model of `_split_component_by_projection`: try a vertical split at the
column whose background-complement sum is minimal (provided the maximum is
positive and the minimum is below `0.20` of it); if that yields at most
one box, additionally try the same split across rows.  `0.20` is the
exact rational of the source's float literal. -/
def _split_component_by_projection {Cnt : Type} (ops : CvOps Cnt) (m : Mask) :
    List Quad :=
  let cs := colSums m
  let v := argminN cs
  let boxesV :=
    if 0 < maxN cs ∧ ((cs.getD v 0 : ℚ) < 0.2 * (maxN cs : ℚ)) then
      pieceBoxes ops shiftQuadX [(leftMask m v, 0), (rightMask m v, (v : ℚ))]
    else []
  if boxesV.length ≤ 1 then
    let rs := rowSums m
    let hh := argminN rs
    let boxesH :=
      if 0 < maxN rs ∧ ((rs.getD hh 0 : ℚ) < 0.2 * (maxN rs : ℚ)) then
        pieceBoxes ops shiftQuadY [(topMask m hh, 0), (botMask m hh, (hh : ℚ))]
      else []
    boxesV ++ boxesH
  else boxesV

/-- Spec-side description of one projection half for C5: the largest
contour of the half, kept only when its area reaches `5000` px², shifted
back into the original frame. -/
def halfBoxSpec {Cnt : Type} (ops : CvOps Cnt) (shift : ℚ → Quad → Quad)
    (piece : Mask × ℚ) : Option Quad :=
  match maxByArea ops (ops.contours piece.1) with
  | none => none
  | some c =>
    if 5000 ≤ ops.area c then some (shift piece.2 (ops.boxPts c)) else none

/-- Spec-side description of the projection splitter for C5, following the
spec's words: per-column background sums, the column attaining the
minimum, a split exactly when the maximum is positive and the minimum is
less than 20% of it (stated as `5·min < max`, exact for integers); each
half contributes a box only if its largest contour reaches `5000` px²;
if the vertical split yields at most one box the identical procedure is
repeated along rows. -/
def split_component_spec {Cnt : Type} (ops : CvOps Cnt) (m : Mask) : List Quad :=
  let cs := colSums m
  let v := argminN cs
  let boxesV :=
    if 0 < maxN cs ∧ 5 * cs.getD v 0 < maxN cs then
      ([(leftMask m v, (0 : ℚ)), (rightMask m v, (v : ℚ))]).filterMap
        (halfBoxSpec ops shiftQuadX)
    else []
  if boxesV.length ≤ 1 then
    let rs := rowSums m
    let hh := argminN rs
    let boxesH :=
      if 0 < maxN rs ∧ 5 * rs.getD hh 0 < maxN rs then
        ([(topMask m hh, (0 : ℚ)), (botMask m hh, (hh : ℚ))]).filterMap
          (halfBoxSpec ops shiftQuadY)
      else []
    boxesV ++ boxesH
  else boxesV

/-- Number of foreground pixels of a mask, counted row by row. -/
def fgCount (m : Mask) : ℕ :=
  ((List.range m.h).map
    (fun r => (List.range m.w).countP (fun c => m.px r c))).sum

/-- Rows that contain at least one foreground pixel. -/
def fgRows (m : Mask) : List ℕ :=
  (List.range m.h).filter (fun r => (List.range m.w).any (fun c => m.px r c))

/-- Columns that contain at least one foreground pixel. -/
def fgCols (m : Mask) : List ℕ :=
  (List.range m.w).filter (fun c => (List.range m.h).any (fun r => m.px r c))

/-- Modelled from the documented OpenCV semantics, for masks whose
foreground is a single connected region: `cv2.findContours` yields exactly
one external contour (none when the mask is blank), identified here with
the mask itself; `cv2.contourArea` of that contour is modelled by the
foreground pixel count (the true value differs only by a boundary term,
and lies on the same side of every threshold compared against in this
development); `cv2.minAreaRect` / `cv2.boxPoints` are modelled by the
axis-aligned bounding rectangle, exact for axis-aligned foregrounds. -/
def pixelCvOps : CvOps Mask where
  contours := fun m => if fgCount m = 0 then [] else [m]
  area := fun m => (fgCount m : ℚ)
  rectWH := fun m =>
    ((maxN (fgCols m) + 1 - minN (fgCols m) : ℕ), (maxN (fgRows m) + 1 - minN (fgRows m) : ℕ))
  boxPts := fun m =>
    ⟨((minN (fgCols m) : ℚ), (minN (fgRows m) : ℚ)),
     ((maxN (fgCols m) : ℚ), (minN (fgRows m) : ℚ)),
     ((maxN (fgCols m) : ℚ), (maxN (fgRows m) : ℚ)),
     ((minN (fgCols m) : ℚ), (maxN (fgRows m) : ℚ))⟩

/-- A 500 × 27 component mask: a full-height foreground strip over columns
1–25 and one full-width foreground row at row 250 (a cross shape, one
connected region). -/
def crossMask : Mask :=
  ⟨500, 27, fun r c => decide (1 ≤ c ∧ c ≤ 25) || decide (r = 250)⟩

/-- The watershed data `detect_boxes_mask` iterates over, as parameters of
the embedding: the label values of `np.unique(ws)` and, per label, the
component mask `np.uint8(ws == label) * 255`. -/
structure MaskPrims where
  labels : List ℤ
  comp : ℤ → Mask

/-- The boxes one watershed label contributes in `detect_boxes_mask`:
labels `≤ 1` are skipped; the largest external contour of the component is
filtered by the page-area window `[0.03, 0.98]` and the `≥ 20` px
minimum-rectangle sides; components of rectangularity below `0.60` are
routed through the projection splitter, the rest contribute their
`minAreaRect` box. -/
def labelBoxes {Cnt : Type} (ops : CvOps Cnt) (prims : MaskPrims) (H W : ℕ)
    (label : ℤ) : List Quad :=
  if label ≤ 1 then []
  else
    match maxByArea ops (ops.contours (prims.comp label)) with
    | none => []
    | some c =>
      let a := ops.area c
      if a < 0.03 * ((H * W : ℕ) : ℚ) ∨ 0.98 * ((H * W : ℕ) : ℚ) < a then []
      else
        let wh := ops.rectWH c
        if wh.1 < 20 ∨ wh.2 < 20 then []
        else if a / max 1 (wh.1 * wh.2) < 0.6 then
          _split_component_by_projection ops (prims.comp label)
        else [ops.boxPts c]

/-- Model of `detect_boxes_mask` (boxes only; the diagnostic steps and
counters do not affect the box list): collect the per-label boxes and
deduplicate them at IoU threshold `0.25`. -/
def detect_boxes_mask {Cnt : Type} (ops : CvOps Cnt) (prims : MaskPrims)
    (H W : ℕ) : List Quad :=
  nms_quads (prims.labels.flatMap (labelBoxes ops prims H W)) 0.25

/-- The boxes one edge contour contributes in `detect_boxes_edges`:
filtered by the page-area window, the `≥ 20` px sides, and the `4.5`
aspect-ratio cutoff. -/
def edgeContourBoxes {Cnt : Type} (ops : CvOps Cnt) (H W : ℕ) (c : Cnt) :
    List Quad :=
  let a := ops.area c
  if a < 0.03 * ((H * W : ℕ) : ℚ) ∨ 0.98 * ((H * W : ℕ) : ℚ) < a then []
  else
    let wh := ops.rectWH c
    if wh.1 < 20 ∨ wh.2 < 20 then []
    else if 4.5 < max wh.1 wh.2 / max 1 (min wh.1 wh.2) then []
    else [ops.boxPts c]

/-- Model of `detect_boxes_edges` (boxes only): the contours of the closed
Canny edge map are a parameter; their boxes are deduplicated at IoU
threshold `0.25`. -/
def detect_boxes_edges {Cnt : Type} (ops : CvOps Cnt) (cnts : List Cnt)
    (H W : ℕ) : List Quad :=
  nms_quads (cnts.flatMap (edgeContourBoxes ops H W)) 0.25

/-- One update of `try_all_orientations`' running best: replace it iff the
detector finds strictly more boxes (`len(boxes) > len(best[0])`). -/
def stepBest {Img' : Type} (det : Img' → List Quad)
    (b : Img' × List Quad × ℕ) (p : Img' × ℕ) : Img' × List Quad × ℕ :=
  let bx := det p.1
  if b.2.1.length < bx.length then (p.1, bx, p.2) else b

/-- The four rotation trials, in the source's fixed order
(`cv2.rotate` is abstracted by the rotation functions). -/
def rotationsOf {Img' : Type} (r90 r180 r270 : Img' → Img') (page : Img') :
    List (Img' × ℕ) :=
  [(page, 0), (r90 page, 90), (r180 page, 180), (r270 page, 270)]

/-- Model of `try_all_orientations` (oriented image, boxes, angle; the
diagnostic dictionaries are dropped): sweep the four rotations with the
mask detector keeping the first strict improvement over `([], page, 0)`;
if the best mask sweep found nothing, repeat the sweep with the edge
detector. -/
def try_all_orientations {Img' : Type} (maskDet edgeDet : Img' → List Quad)
    (r90 r180 r270 : Img' → Img') (page : Img') : Img' × List Quad × ℕ :=
  let rots := rotationsOf r90 r180 r270 page
  let bestM := rots.foldl (stepBest maskDet) (page, [], 0)
  if bestM.2.1.length = 0 then rots.foldl (stepBest edgeDet) bestM else bestM

/-- Spec-side selector for C3: the earliest rotation index (in the order
0°, 90°, 180°, 270°) attaining the maximum count. -/
def bestRotation (c0 c1 c2 c3 : ℕ) : ℕ :=
  if c1 ≤ c0 ∧ c2 ≤ c0 ∧ c3 ≤ c0 then 0
  else if c2 ≤ c1 ∧ c3 ≤ c1 then 1
  else if c3 ≤ c2 then 2
  else 3

/-- The orientation-search result corresponding to rotation index `k` with
detector `det`. -/
def rotPick {Img' : Type} (det : Img' → List Quad) (r90 r180 r270 : Img' → Img')
    (page : Img') (k : ℕ) : Img' × List Quad × ℕ :=
  match k with
  | 0 => (page, det page, 0)
  | 1 => (r90 page, det (r90 page), 90)
  | 2 => (r180 page, det (r180 page), 180)
  | _ => (r270 page, det (r270 page), 270)

/-- Model of `extract_photos_from_scan`: orientation search, then the
ordered warp-and-crop extraction loop over the winning box list. -/
def extract_photos_from_scan {Img' Photo : Type}
    (maskDet edgeDet : Img' → List Quad) (r90 r180 r270 : Img' → Img')
    (cropF : ℚ × ℚ → Photo) (page : Img') : List Photo :=
  extract_photos cropF (try_all_orientations maskDet edgeDet r90 r180 r270 page).2.1

/-- A decoded bitmap: `h × w` grid of pixels. -/
structure Image (Pix : Type) where
  h : ℕ
  w : ℕ
  px : ℕ → ℕ → Pix

/-- The nonzero coordinates `(x, y)` of a thresholded `h × w` mask
(`cv2.findNonZero`). -/
def nonZeroCoords (hgt wid : ℕ) (th : ℕ → ℕ → Bool) : List (ℕ × ℕ) :=
  (List.range hgt).flatMap
    (fun y => ((List.range wid).filter (fun x => th y x)).map (fun x => (x, y)))

/-- Model of `auto_crop_border`.  The gray/Otsu/opening pipeline that
produces the threshold mask consists of external OpenCV calls and is a
parameter `th`; the source then takes the bounding rectangle of the
nonzero mask pixels (returning the image unchanged when there are none),
pads it by `pad`, clamps the window to the image (`max(0, ·)` is `ℕ`
truncated subtraction here) and crops.  `cv2.boundingRect` yields
`x, y, w, h` with `w = maxx - minx + 1`, `h = maxy - miny + 1`. -/
def auto_crop_border {Pix : Type} (img : Image Pix) (th : ℕ → ℕ → Bool)
    (pad : ℕ) : Image Pix :=
  match nonZeroCoords img.h img.w th with
  | [] => img
  | c :: cs =>
    let xs := (c :: cs).map Prod.fst
    let ys := (c :: cs).map Prod.snd
    let bw := maxN xs + 1 - minN xs
    let bh := maxN ys + 1 - minN ys
    let x := minN xs - pad
    let y := minN ys - pad
    let w := min (img.w - x) (bw + 2 * pad)
    let hgt := min (img.h - y) (bh + 2 * pad)
    ⟨hgt, w, fun r cc => img.px (y + r) (x + cc)⟩

/-- An axis-aligned unit-scale box used by witnesses: the square with
corners (0,0) and (100,100). -/
def qUnit : Quad := ⟨(0, 0), (100, 0), (100, 100), (0, 100)⟩

/-- A box whose rasterization (for shape (1000, 1000)) is entirely outside
the fixed 2048-pixel grid: corners (1500,1500)–(1625,1625), which scale by
`2048/1000` to (3072,3072)–(3328,3328). -/
def qOff : Quad := ⟨(1500, 1500), (1625, 1500), (1625, 1625), (1500, 1625)⟩

/-- The full-page box (0,0)–(1000,1000), scaling to the whole grid. -/
def qPage : Quad := ⟨(0, 0), (1000, 0), (1000, 1000), (0, 1000)⟩

/-- A left-side box (0,0)–(500,500), scaling to (0,0)–(1024,1024). -/
def qLeft : Quad := ⟨(0, 0), (500, 0), (500, 500), (0, 500)⟩

/-- A right-side box (625,0)–(875,250), scaling to (1280,0)–(1792,512). -/
def qRight : Quad := ⟨(625, 0), (875, 0), (875, 250), (625, 250)⟩

/-- Contour primitives that find nothing, for witnesses. -/
def emptyCvOps : CvOps Unit where
  contours := fun _ => []
  area := fun _ => 0
  rectWH := fun _ => (0, 0)
  boxPts := fun _ => default

/-- Watershed data with a single blank-component label, for witnesses. -/
def emptyMaskPrims : MaskPrims := ⟨[2], fun _ => ⟨0, 0, fun _ _ => false⟩⟩

/-! ### Lemmas about the rasterized IoU -/

theorem mem_gridPts {p : ℕ × ℕ} : p ∈ gridPts ↔ p.1 < gridS ∧ p.2 < gridS := by
  obtain ⟨x, y⟩ := p
  simp only [gridPts, List.mem_flatMap, List.mem_map, List.mem_range, Prod.mk.injEq]
  constructor
  · rintro ⟨a, ha, b, hb, rfl, rfl⟩
    exact ⟨hb, ha⟩
  · rintro ⟨hx, hy⟩
    exact ⟨y, hy, x, hx, rfl, rfl⟩

theorem interCount_comm (shape : ℕ × ℕ) (a b : Quad) :
    interCount shape a b = interCount shape b a := by
  unfold interCount
  congr 1
  funext p
  exact Bool.and_comm _ _

theorem unionCount_comm (shape : ℕ × ℕ) (a b : Quad) :
    unionCount shape a b = unionCount shape b a := by
  unfold unionCount
  congr 1
  funext p
  exact Bool.or_comm _ _

theorem iou_quads_comm (a b : Quad) (shape : ℕ × ℕ) :
    iou_quads a b shape = iou_quads b a shape := by
  unfold iou_quads
  rw [interCount_comm, unionCount_comm]

theorem interCount_self (shape : ℕ × ℕ) (a : Quad) :
    interCount shape a a = unionCount shape a a := by
  unfold interCount unionCount
  congr 1
  funext p
  rw [Bool.and_self, Bool.or_self]

theorem iou_quads_self_of_union_pos (shape : ℕ × ℕ) (a : Quad)
    (h : unionCount shape a a ≠ 0) : iou_quads a a shape = 1 := by
  unfold iou_quads
  rw [if_neg h, interCount_self]
  exact div_self (Nat.cast_ne_zero.mpr h)

theorem iou_quads_of_inter_zero (shape : ℕ × ℕ) (a b : Quad)
    (h : interCount shape a b = 0) : iou_quads a b shape = 0 := by
  unfold iou_quads
  split
  · rfl
  · rw [h]
    simp

theorem truncQ_intCast (z : ℤ) : truncQ (z : ℚ) = z := by
  unfold truncQ
  split <;> simp

theorem truncPt_eq {p : Pt} {a b : ℤ} (h1 : p.1 = (a : ℚ)) (h2 : p.2 = (b : ℚ)) :
    truncPt p = (a, b) := by
  simp [truncPt, h1, h2, truncQ_intCast]

theorem quad_to_mask_eval {q : Quad} {z0 z1 z2 z3 : ℤ × ℤ}
    (h0 : truncPt q.p0 = z0) (h1 : truncPt q.p1 = z1)
    (h2 : truncPt q.p2 = z2) (h3 : truncPt q.p3 = z3) (p : ℕ × ℕ) :
    quad_to_mask q p = insideZ z0 z1 z2 z3 ((p.1 : ℤ), (p.2 : ℤ)) := by
  unfold quad_to_mask
  rw [h0, h1, h2, h3]

theorem qOff_mask_eval (p : ℕ × ℕ) :
    quad_to_mask (scaledQuad (1000, 1000) qOff) p =
      insideZ (3072, 3072) (3328, 3072) (3328, 3328) (3072, 3328)
        ((p.1 : ℤ), (p.2 : ℤ)) := by
  apply quad_to_mask_eval <;> apply truncPt_eq <;>
    norm_num [scaledQuad, scaleQuad, qOff, gridS]

theorem qOff_mask_false (p : ℕ × ℕ) (hp : p ∈ gridPts) :
    quad_to_mask (scaledQuad (1000, 1000) qOff) p = false := by
  obtain ⟨hx, hy⟩ := mem_gridPts.mp hp
  have hx' : (p.1 : ℤ) < 2048 := by
    have : p.1 < 2048 := by simpa [gridS] using hx
    exact_mod_cast this
  rw [qOff_mask_eval, Bool.eq_false_iff]
  intro hcontra
  simp only [insideZ, crossZ, Bool.or_eq_true, Bool.and_eq_true,
    decide_eq_true_eq] at hcontra
  omega

theorem unionCount_qOff : unionCount (1000, 1000) qOff qOff = 0 := by
  unfold unionCount
  rw [List.countP_eq_zero]
  intro p hp
  simp [qOff_mask_false p hp]

theorem qPage_mask_eval (p : ℕ × ℕ) :
    quad_to_mask (scaledQuad (1000, 1000) qPage) p =
      insideZ (0, 0) (2048, 0) (2048, 2048) (0, 2048) ((p.1 : ℤ), (p.2 : ℤ)) := by
  apply quad_to_mask_eval <;> apply truncPt_eq <;>
    norm_num [scaledQuad, scaleQuad, qPage, gridS]

theorem qLeft_mask_eval (p : ℕ × ℕ) :
    quad_to_mask (scaledQuad (1000, 1000) qLeft) p =
      insideZ (0, 0) (1024, 0) (1024, 1024) (0, 1024) ((p.1 : ℤ), (p.2 : ℤ)) := by
  apply quad_to_mask_eval <;> apply truncPt_eq <;>
    norm_num [scaledQuad, scaleQuad, qLeft, gridS]

theorem qRight_mask_eval (p : ℕ × ℕ) :
    quad_to_mask (scaledQuad (1000, 1000) qRight) p =
      insideZ (1280, 0) (1792, 0) (1792, 512) (1280, 512) ((p.1 : ℤ), (p.2 : ℤ)) := by
  apply quad_to_mask_eval <;> apply truncPt_eq <;>
    norm_num [scaledQuad, scaleQuad, qRight, gridS]

theorem unionCount_qPage_pos : unionCount (1000, 1000) qPage qPage ≠ 0 := by
  have hmem : ((1, 1) : ℕ × ℕ) ∈ gridPts :=
    mem_gridPts.mpr ⟨by norm_num [gridS], by norm_num [gridS]⟩
  have hfill : quad_to_mask (scaledQuad (1000, 1000) qPage) (1, 1) = true := by
    rw [qPage_mask_eval]
    decide
  have : 0 < unionCount (1000, 1000) qPage qPage := by
    unfold unionCount
    rw [List.countP_pos_iff]
    exact ⟨(1, 1), hmem, by simp only [hfill, Bool.true_or]⟩
  omega

theorem interCount_qLeft_qRight : interCount (1000, 1000) qLeft qRight = 0 := by
  unfold interCount
  rw [List.countP_eq_zero]
  intro p _
  rw [Bool.not_eq_true, Bool.and_eq_false_iff]
  by_cases hA : quad_to_mask (scaledQuad (1000, 1000) qLeft) p = true
  · right
    rw [Bool.eq_false_iff]
    intro hB
    rw [qLeft_mask_eval] at hA
    rw [qRight_mask_eval] at hB
    simp only [insideZ, crossZ, Bool.or_eq_true, Bool.and_eq_true,
      decide_eq_true_eq] at hA hB
    omega
  · left
    exact Bool.eq_false_iff.mpr hA

/-! ### Lemmas about the greedy suppression loop -/

theorem nmsKeep_eq_append (t : ℚ) :
    ∀ l kept, ∃ s, nmsKeep t l kept = kept ++ s ∧ s.Sublist l := by
  intro l
  induction l with
  | nil => exact fun kept => ⟨[], by simp [nmsKeep]⟩
  | cons b rest ih =>
    intro kept
    rw [nmsKeep]
    split
    · obtain ⟨s, hs, hsub⟩ := ih (kept ++ [b])
      refine ⟨b :: s, ?_, hsub.cons₂ b⟩
      rw [hs, List.append_assoc, List.singleton_append]
    · obtain ⟨s, hs, hsub⟩ := ih kept
      exact ⟨s, hs, hsub.cons b⟩

theorem nmsKeep_pairwise (t : ℚ) :
    ∀ l kept,
      kept.Pairwise
        (fun A B => iou_quads A B (1000, 1000) ≤ t ∧ iou_quads B A (1000, 1000) ≤ t) →
      (nmsKeep t l kept).Pairwise
        (fun A B => iou_quads A B (1000, 1000) ≤ t ∧ iou_quads B A (1000, 1000) ≤ t) := by
  intro l
  induction l with
  | nil => exact fun kept h => h
  | cons b rest ih =>
    intro kept hkept
    rw [nmsKeep]
    split
    on_goal 2 => exact ih kept hkept
    next hall =>
      apply ih
      rw [List.pairwise_append]
      refine ⟨hkept, List.pairwise_singleton _ _, ?_⟩
      intro a ha b' hb'
      rw [List.mem_singleton] at hb'
      subst hb'
      have h1 : iou_quads b' a (1000, 1000) ≤ t :=
        of_decide_eq_true (List.all_eq_true.mp hall a ha)
      exact ⟨(iou_quads_comm b' a (1000, 1000)) ▸ h1, h1⟩

theorem nmsOrder_perm (boxes : List Quad) : (nmsOrder boxes).Perm boxes :=
  (List.reverse_perm _).trans (List.perm_insertionSort areaLE boxes)

theorem nmsOrder_sorted (boxes : List Quad) :
    (nmsOrder boxes).Pairwise (fun x y => quadAreaCv y ≤ quadAreaCv x) := by
  unfold nmsOrder
  rw [List.pairwise_reverse]
  exact List.sorted_insertionSort areaLE boxes

/-- C1: for every candidate list and threshold `t` (default `0.25`),
`nms_quads` processes candidates in descending contour-area order (its
output is a sub-sequence of that order) and every pair of retained boxes
has rasterized-grid IoU at most `t`, in both argument orders. -/
theorem nms_quads_no_excess_overlap (t : ℚ) (boxes : List Quad) :
    (nms_quads boxes t).Sublist (nmsOrder boxes) ∧
    (nms_quads boxes t).Pairwise
      (fun A B => iou_quads A B (1000, 1000) ≤ t ∧ iou_quads B A (1000, 1000) ≤ t) := by
  constructor
  · obtain ⟨s, hs, hsub⟩ := nmsKeep_eq_append t (nmsOrder boxes) []
    unfold nms_quads
    rw [hs, List.nil_append]
    exact hsub
  · exact nmsKeep_pairwise t (nmsOrder boxes) [] List.Pairwise.nil

/-- Witness for C1, at the threshold `0.25` and a concrete two-box list. -/
theorem nms_quads_no_excess_overlap_witness :
    (nms_quads [qLeft, qRight] 0.25).Sublist (nmsOrder [qLeft, qRight]) ∧
    (nms_quads [qLeft, qRight] 0.25).Pairwise
      (fun A B =>
        iou_quads A B (1000, 1000) ≤ 0.25 ∧ iou_quads B A (1000, 1000) ≤ 0.25) :=
  nms_quads_no_excess_overlap 0.25 [qLeft, qRight]

/-- C9: on a non-empty input, `nms_quads` always retains a candidate of
maximum contour area — the head of its output — and its output is ordered
by non-increasing contour area, not by input order. -/
theorem nms_quads_retains_max_area (t : ℚ) (b : Quad) (bs : List Quad) :
    nms_quads (b :: bs) t ≠ [] ∧
    (nms_quads (b :: bs) t).headI ∈ b :: bs ∧
    (∀ x ∈ b :: bs, quadAreaCv x ≤ quadAreaCv (nms_quads (b :: bs) t).headI) ∧
    (nms_quads (b :: bs) t).Pairwise (fun x y => quadAreaCv y ≤ quadAreaCv x) := by
  have hperm := nmsOrder_perm (b :: bs)
  have hne : nmsOrder (b :: bs) ≠ [] := by
    intro h
    have hl := hperm.length_eq
    rw [h] at hl
    simp at hl
  obtain ⟨h0, tl, heq⟩ := List.exists_cons_of_ne_nil hne
  have hsorted := nmsOrder_sorted (b :: bs)
  rw [heq] at hsorted hperm
  obtain ⟨s, hs, hsub⟩ := nmsKeep_eq_append t tl [h0]
  have hrun : nms_quads (b :: bs) t = h0 :: s := by
    unfold nms_quads
    rw [heq, nmsKeep]
    simp only [List.all_nil, if_true, List.nil_append]
    rw [hs, List.singleton_append]
  refine ⟨by rw [hrun]; simp, ?_, ?_, ?_⟩
  · rw [hrun]
    exact hperm.subset (List.mem_cons_self h0 tl)
  · intro x hx
    rw [hrun]
    have hx' : x ∈ h0 :: tl := hperm.mem_iff.mpr hx
    rcases List.mem_cons.mp hx' with rfl | hxtl
    · exact le_refl _
    · exact (List.pairwise_cons.mp hsorted).1 x hxtl
  · have hsub' : (h0 :: s).Sublist (h0 :: tl) := hsub.cons₂ h0
    rw [hrun]
    exact hsorted.sublist hsub'

/-- Witness for C9 on a singleton candidate list. -/
theorem nms_quads_retains_max_area_witness :
    nms_quads [qUnit] 0.25 ≠ [] ∧
    (nms_quads [qUnit] 0.25).headI ∈ [qUnit] ∧
    quadAreaCv qUnit ≤ quadAreaCv (nms_quads [qUnit] 0.25).headI :=
  ⟨(nms_quads_retains_max_area 0.25 qUnit []).1,
   (nms_quads_retains_max_area 0.25 qUnit []).2.1,
   (nms_quads_retains_max_area 0.25 qUnit []).2.2.1 qUnit (List.mem_singleton_self _)⟩

/-- C6 counterexample: the box with corners (1500,1500)–(1625,1625)
rasterizes (for the `(1000, 1000)` shape `nms_quads` passes) entirely
outside the fixed 2048-pixel grid, so its union mask is empty and its IoU
against itself is `0.0`, not `1.0`. -/
theorem iou_quads_self_not_one_counterexample :
    iou_quads qOff qOff (1000, 1000) ≠ 1 := by
  unfold iou_quads
  rw [if_pos unionCount_qOff]
  norm_num

/-- C6 (amended): the self-IoU computed by `iou_quads` equals exactly `1.0`
for every box whose rasterized mask contains at least one grid pixel (a box
rasterizing to the empty mask yields `0.0` instead), and the IoU of two
boxes whose rasterized masks are disjoint equals exactly `0.0`. -/
theorem iou_quads_self_one_and_disjoint_zero :
    (∀ (shape : ℕ × ℕ) (a : Quad), unionCount shape a a ≠ 0 → iou_quads a a shape = 1) ∧
    (∀ (shape : ℕ × ℕ) (a b : Quad), interCount shape a b = 0 → iou_quads a b shape = 0) :=
  ⟨iou_quads_self_of_union_pos, iou_quads_of_inter_zero⟩

/-- Witness for C6 (amended): the full-page box has nonempty rasterization
and self-IoU exactly `1.0`; two separated boxes have disjoint
rasterizations and IoU exactly `0.0`. -/
theorem iou_quads_self_one_and_disjoint_zero_witness :
    iou_quads qPage qPage (1000, 1000) = 1 ∧
    iou_quads qLeft qRight (1000, 1000) = 0 :=
  ⟨iou_quads_self_one_and_disjoint_zero.1 (1000, 1000) qPage unionCount_qPage_pos,
   iou_quads_self_one_and_disjoint_zero.2 (1000, 1000) qLeft qRight
     interCount_qLeft_qRight⟩

/-! ### Lemmas about warping and the extraction loop -/

theorem sqDist_comm (p q : Pt) : sqDist p q = sqDist q p := by
  unfold sqDist
  ring

theorem length_filterMap_eq_countP {α β : Type} (f : α → Option β) (l : List α) :
    (l.filterMap f).length = l.countP (fun a => (f a).isSome) := by
  induction l with
  | nil => rfl
  | cons x xs ih =>
    simp only [List.filterMap_cons, List.countP_cons]
    cases h : f x <;> simp [h, ih]

theorem filterMap_eq_filterMap_filter {α β : Type} (f : α → Option β) (l : List α) :
    l.filterMap f = (l.filter (fun a => (f a).isSome)).filterMap f := by
  induction l with
  | nil => rfl
  | cons x xs ih =>
    cases h : f x <;>
      simp [List.filterMap_cons, List.filter_cons, h, ih]

theorem warp_isSome_iff (q : Quad) :
    (warp_perspective_from_box q).isSome ↔ boxDimsOK q := by
  simp only [warp_perspective_from_box, boxDimsOK]
  rw [show ((20 : ℚ) ^ 2) = 400 by norm_num,
    sqDist_comm (order_box_points q).p0 (order_box_points q).p1,
    sqDist_comm (order_box_points q).p3 (order_box_points q).p2,
    max_comm (sqDist (order_box_points q).p1 (order_box_points q).p0)
      (sqDist (order_box_points q).p2 (order_box_points q).p3),
    max_comm (sqDist (order_box_points q).p0 (order_box_points q).p3)
      (sqDist (order_box_points q).p1 (order_box_points q).p2)]
  split
  next h =>
    simp only [Option.isSome_none, Bool.false_eq_true, false_iff]
    rintro ⟨hW, hH⟩
    rcases h with h | h <;> linarith
  next h =>
    push_neg at h
    simp only [Option.isSome_some, true_iff]
    exact h

/-- C4: an extracted photo is produced for a box iff the computed target
width (larger of top/bottom edge lengths) and target height (larger of
left/right edge lengths) are both at least 20 px — `warp` returns `none`
exactly otherwise — and the extraction loop silently appends nothing for
boxes failing the check: the number of photos equals the number of boxes
passing it. -/
theorem extracted_iff_warp_dims_ok :
    (∀ q : Quad, (warp_perspective_from_box q).isSome ↔ boxDimsOK q) ∧
    (∀ (Photo : Type) (cropF : ℚ × ℚ → Photo) (boxes : List Quad),
      (extract_photos cropF boxes).length =
        boxes.countP (fun b => decide (boxDimsOK b))) := by
  refine ⟨warp_isSome_iff, ?_⟩
  intro Photo cropF boxes
  unfold extract_photos
  rw [length_filterMap_eq_countP]
  have hpt : ∀ b ∈ orderedBoxes boxes,
      (((warp_perspective_from_box b).map cropF).isSome = true ↔
        decide (boxDimsOK b) = true) := by
    intro b _
    cases hw : warp_perspective_from_box b with
    | none =>
      have hnot : ¬ boxDimsOK b := fun hc => by
        have := (warp_isSome_iff b).mpr hc
        rw [hw] at this
        exact absurd this (by simp)
      simp [hw, hnot]
    | some v =>
      have hok : boxDimsOK b := (warp_isSome_iff b).mp (by rw [hw]; rfl)
      simp [hw, hok]
  rw [List.countP_congr hpt]
  exact (List.perm_insertionSort keyLE boxes).countP_eq _

/-- Witness for C4 at a concrete box and box list. -/
theorem extracted_iff_warp_dims_ok_witness :
    ((warp_perspective_from_box qUnit).isSome ↔ boxDimsOK qUnit) ∧
    (extract_photos (fun d => d) [qUnit]).length =
      [qUnit].countP (fun b => decide (boxDimsOK b)) :=
  ⟨extracted_iff_warp_dims_ok.1 qUnit,
   extracted_iff_warp_dims_ok.2 (ℚ × ℚ) (fun d => d) [qUnit]⟩

/-- C7: the extraction loop emits photos in ascending order of the centroid
key `1e5 · centroid_y + centroid_x`: the emitted photos are exactly the
warps of `emittedSources boxes` in that order, the sources are sorted by
the key, and each comes from the input box list. -/
theorem extract_photos_reading_order {Photo : Type} (cropF : ℚ × ℚ → Photo)
    (boxes : List Quad) :
    extract_photos cropF boxes =
      (emittedSources boxes).filterMap
        (fun b => (warp_perspective_from_box b).map cropF) ∧
    (emittedSources boxes).Pairwise (fun a b => keyQ a ≤ keyQ b) ∧
    ∀ b ∈ emittedSources boxes, b ∈ boxes := by
  refine ⟨?_, ?_, ?_⟩
  · unfold extract_photos emittedSources
    rw [filterMap_eq_filterMap_filter]
    congr 1
    apply List.filter_congr
    intro b _
    cases hw : warp_perspective_from_box b <;> simp [hw]
  · unfold emittedSources
    exact (List.sorted_insertionSort keyLE boxes).sublist (List.filter_sublist _)
  · intro b hb
    unfold emittedSources at hb
    exact (List.perm_insertionSort keyLE boxes).subset (List.mem_of_mem_filter hb)

/-- Witness for C7 at a concrete singleton box list. -/
theorem extract_photos_reading_order_witness :
    extract_photos (fun d => d) [qUnit] =
      (emittedSources [qUnit]).filterMap
        (fun b => (warp_perspective_from_box b).map (fun d => d)) ∧
    (emittedSources [qUnit]).Pairwise (fun a b => keyQ a ≤ keyQ b) :=
  ⟨(extract_photos_reading_order (fun d => d) [qUnit]).1,
   (extract_photos_reading_order (fun d => d) [qUnit]).2.1⟩

/-! ### Lemmas about the orientation search -/

theorem snd_fst_mk {α β γ : Type} (a : α) (b : β) (c : γ) : (a, b, c).2.1 = b := rfl

theorem foldl_stepBest_eq {Img' : Type} (det : Img' → List Quad)
    (r90 r180 r270 : Img' → Img') (page : Img') :
    (rotationsOf r90 r180 r270 page).foldl (stepBest det) (page, [], 0) =
      (if 0 < (det page).length ∨ 0 < (det (r90 page)).length ∨
            0 < (det (r180 page)).length ∨ 0 < (det (r270 page)).length then
        rotPick det r90 r180 r270 page
          (bestRotation (det page).length (det (r90 page)).length
            (det (r180 page)).length (det (r270 page)).length)
      else (page, [], 0)) := by
  simp only [rotationsOf, List.foldl_cons, List.foldl_nil, stepBest, bestRotation,
    rotPick, List.length_nil, snd_fst_mk]
  split_ifs <;> (try simp only [snd_fst_mk, List.length_nil] at *) <;>
    first | rfl | omega

theorem rotPick_best_pos {Img' : Type} (det : Img' → List Quad)
    (r90 r180 r270 : Img' → Img') (page : Img')
    (h : 0 < (det page).length ∨ 0 < (det (r90 page)).length ∨
        0 < (det (r180 page)).length ∨ 0 < (det (r270 page)).length) :
    (rotPick det r90 r180 r270 page
        (bestRotation (det page).length (det (r90 page)).length
          (det (r180 page)).length (det (r270 page)).length)).2.1.length ≠ 0 := by
  unfold bestRotation
  split_ifs <;> simp only [rotPick, snd_fst_mk] <;> omega

/-- C3: `try_all_orientations` returns the rotation (in the fixed order
0°, 90°, 180°, 270°) with the strictly greatest `MaskDetector` box count,
resolving ties toward the earliest rotation (`bestRotation` is the
earliest index attaining the maximum); the `EdgeDetector` sweep decides
the result if and only if every mask count is zero, with the same
tie-break; if the edge sweep also finds nothing the original page with an
empty box list and angle 0 is returned (the `k = 0` pick with an empty
detector result). -/
theorem try_all_orientations_best_rotation {Img' : Type}
    (maskDet edgeDet : Img' → List Quad) (r90 r180 r270 : Img' → Img')
    (page : Img') :
    try_all_orientations maskDet edgeDet r90 r180 r270 page =
      (if 0 < (maskDet page).length ∨ 0 < (maskDet (r90 page)).length ∨
            0 < (maskDet (r180 page)).length ∨ 0 < (maskDet (r270 page)).length then
        rotPick maskDet r90 r180 r270 page
          (bestRotation (maskDet page).length (maskDet (r90 page)).length
            (maskDet (r180 page)).length (maskDet (r270 page)).length)
      else
        rotPick edgeDet r90 r180 r270 page
          (bestRotation (edgeDet page).length (edgeDet (r90 page)).length
            (edgeDet (r180 page)).length (edgeDet (r270 page)).length)) := by
  simp only [try_all_orientations]
  rw [foldl_stepBest_eq maskDet]
  by_cases hM : 0 < (maskDet page).length ∨ 0 < (maskDet (r90 page)).length ∨
      0 < (maskDet (r180 page)).length ∨ 0 < (maskDet (r270 page)).length
  · rw [if_pos hM, if_pos hM,
      if_neg (rotPick_best_pos maskDet r90 r180 r270 page hM)]
  · rw [if_neg hM, if_neg hM]
    simp only [List.length_nil, if_true]
    rw [foldl_stepBest_eq edgeDet]
    by_cases hE : 0 < (edgeDet page).length ∨ 0 < (edgeDet (r90 page)).length ∨
        0 < (edgeDet (r180 page)).length ∨ 0 < (edgeDet (r270 page)).length
    · rw [if_pos hE]
    · rw [if_neg hE]
      push_neg at hE
      have he0 : edgeDet page = [] :=
        List.length_eq_zero.mp (by omega)
      have hbr : bestRotation (edgeDet page).length (edgeDet (r90 page)).length
          (edgeDet (r180 page)).length (edgeDet (r270 page)).length = 0 := by
        unfold bestRotation
        rw [if_pos (by omega)]
      rw [hbr]
      simp only [rotPick]
      rw [he0]

/-! ### Empty-result behaviour of the detectors and the pipeline -/

theorem nms_quads_nil (t : ℚ) : nms_quads [] t = [] := rfl

theorem flatMap_eq_nil_of {α β : Type} (f : α → List β) (l : List α)
    (h : ∀ x ∈ l, f x = []) : l.flatMap f = [] := by
  induction l with
  | nil => rfl
  | cons x xs ih =>
    rw [List.flatMap_cons, h x (List.mem_cons_self x xs),
      ih (fun y hy => h y (List.mem_cons_of_mem x hy)), List.nil_append]

/-- C8: the pipeline never fails on "no photos found": when no watershed
blob qualifies, `detect_boxes_mask` returns the empty box list; when no
edge contour qualifies, `detect_boxes_edges` returns the empty box list;
and when both detectors return empty lists at all four rotations the
top-level extraction returns the empty photo sequence. -/
theorem detectors_empty_and_no_photos :
    (∀ (Cnt : Type) (ops : CvOps Cnt) (prims : MaskPrims) (H W : ℕ),
      (∀ l ∈ prims.labels, labelBoxes ops prims H W l = []) →
      detect_boxes_mask ops prims H W = []) ∧
    (∀ (Cnt : Type) (ops : CvOps Cnt) (cnts : List Cnt) (H W : ℕ),
      (∀ c ∈ cnts, edgeContourBoxes ops H W c = []) →
      detect_boxes_edges ops cnts H W = []) ∧
    (∀ (Img' Photo : Type) (maskDet edgeDet : Img' → List Quad)
      (r90 r180 r270 : Img' → Img') (cropF : ℚ × ℚ → Photo) (page : Img'),
      (∀ p ∈ rotationsOf r90 r180 r270 page, maskDet p.1 = [] ∧ edgeDet p.1 = []) →
      extract_photos_from_scan maskDet edgeDet r90 r180 r270 cropF page = []) := by
  refine ⟨?_, ?_, ?_⟩
  · intro Cnt ops prims H W h
    unfold detect_boxes_mask
    rw [flatMap_eq_nil_of _ _ h]
    exact nms_quads_nil _
  · intro Cnt ops cnts H W h
    unfold detect_boxes_edges
    rw [flatMap_eq_nil_of _ _ h]
    exact nms_quads_nil _
  · intro Img' Photo maskDet edgeDet r90 r180 r270 cropF page h
    have hm0 : maskDet page = [] :=
      (h (page, 0) (by simp [rotationsOf])).1
    have hm1 : maskDet (r90 page) = [] :=
      (h (r90 page, 90) (by simp [rotationsOf])).1
    have hm2 : maskDet (r180 page) = [] :=
      (h (r180 page, 180) (by simp [rotationsOf])).1
    have hm3 : maskDet (r270 page) = [] :=
      (h (r270 page, 270) (by simp [rotationsOf])).1
    have he0 : edgeDet page = [] :=
      (h (page, 0) (by simp [rotationsOf])).2
    have he1 : edgeDet (r90 page) = [] :=
      (h (r90 page, 90) (by simp [rotationsOf])).2
    have he2 : edgeDet (r180 page) = [] :=
      (h (r180 page, 180) (by simp [rotationsOf])).2
    have he3 : edgeDet (r270 page) = [] :=
      (h (r270 page, 270) (by simp [rotationsOf])).2
    unfold extract_photos_from_scan
    simp only [try_all_orientations]
    rw [foldl_stepBest_eq maskDet]
    simp only [hm0, hm1, hm2, hm3, List.length_nil, lt_irrefl, or_self, if_false]
    rw [if_pos trivial, foldl_stepBest_eq edgeDet]
    simp only [he0, he1, he2, he3, List.length_nil, lt_irrefl, or_self, if_false]
    rfl

/-- Witness for C8 with blank primitives and constant-empty detectors. -/
theorem detectors_empty_and_no_photos_witness :
    detect_boxes_mask emptyCvOps emptyMaskPrims 100 100 = [] ∧
    detect_boxes_edges emptyCvOps ([] : List Unit) 100 100 = [] ∧
    extract_photos_from_scan (fun _ : ℕ => ([] : List Quad)) (fun _ => [])
      (fun n => n) (fun n => n) (fun n => n) (fun d => d) 0 = [] := by
  refine ⟨detectors_empty_and_no_photos.1 Unit emptyCvOps emptyMaskPrims 100 100 ?_,
    detectors_empty_and_no_photos.2.1 Unit emptyCvOps [] 100 100 ?_,
    detectors_empty_and_no_photos.2.2 ℕ (ℚ × ℚ) _ _ _ _ _ _ 0 ?_⟩
  · intro l hl
    rw [List.mem_singleton.mp hl]
    rfl
  · intro c hc
    exact absurd hc (List.not_mem_nil c)
  · intro p _
    exact ⟨rfl, rfl⟩

/-! ### The border auto-crop -/

theorem foldl_min_le (l : List ℕ) : ∀ a : ℕ, l.foldl min a ≤ a := by
  induction l with
  | nil => exact fun a => le_refl a
  | cons x xs ih => exact fun a => le_trans (ih (min a x)) (min_le_left a x)

theorem mem_nonZeroCoords {hgt wid : ℕ} {th : ℕ → ℕ → Bool} {p : ℕ × ℕ}
    (hp : p ∈ nonZeroCoords hgt wid th) : p.1 < wid ∧ p.2 < hgt := by
  simp only [nonZeroCoords, List.mem_flatMap, List.mem_map, List.mem_filter,
    List.mem_range] at hp
  obtain ⟨y, hy, x, ⟨hx, _⟩, rfl⟩ := hp
  exact ⟨hx, hy⟩

/-- C10: `auto_crop_border` returns a contiguous axis-aligned rectangular
subregion of its input: there are offsets `x0, y0` such that every output
pixel equals the input pixel at that offset, the output dimensions never
exceed the input's, and the padded crop window stays inside the image
bounds. -/
theorem auto_crop_border_subregion {Pix : Type} (img : Image Pix)
    (th : ℕ → ℕ → Bool) :
    ∃ x0 y0 : ℕ,
      (auto_crop_border img th 10).h ≤ img.h ∧
      (auto_crop_border img th 10).w ≤ img.w ∧
      y0 + (auto_crop_border img th 10).h ≤ img.h ∧
      x0 + (auto_crop_border img th 10).w ≤ img.w ∧
      ∀ r c : ℕ, (auto_crop_border img th 10).px r c = img.px (y0 + r) (x0 + c) := by
  cases hnz : nonZeroCoords img.h img.w th with
  | nil =>
    have heq : auto_crop_border img th 10 = img := by
      unfold auto_crop_border
      rw [hnz]
    refine ⟨0, 0, ?_, ?_, ?_, ?_, ?_⟩ <;> rw [heq] <;> try omega
    intro r c
    rw [Nat.zero_add, Nat.zero_add]
  | cons c0 cs =>
    have hc0 : c0 ∈ nonZeroCoords img.h img.w th := by
      rw [hnz]
      exact List.mem_cons_self _ _
    obtain ⟨hcx, hcy⟩ := mem_nonZeroCoords hc0
    have hminx : minN ((c0 :: cs).map Prod.fst) ≤ c0.1 := by
      simp only [List.map_cons, minN]
      exact foldl_min_le _ _
    have hminy : minN ((c0 :: cs).map Prod.snd) ≤ c0.2 := by
      simp only [List.map_cons, minN]
      exact foldl_min_le _ _
    have heq : auto_crop_border img th 10 =
        ⟨min (img.h - (minN ((c0 :: cs).map Prod.snd) - 10))
           (maxN ((c0 :: cs).map Prod.snd) + 1 - minN ((c0 :: cs).map Prod.snd) + 2 * 10),
         min (img.w - (minN ((c0 :: cs).map Prod.fst) - 10))
           (maxN ((c0 :: cs).map Prod.fst) + 1 - minN ((c0 :: cs).map Prod.fst) + 2 * 10),
         fun r cc =>
           img.px (minN ((c0 :: cs).map Prod.snd) - 10 + r)
             (minN ((c0 :: cs).map Prod.fst) - 10 + cc)⟩ := by
      unfold auto_crop_border
      rw [hnz]
    refine ⟨minN ((c0 :: cs).map Prod.fst) - 10,
      minN ((c0 :: cs).map Prod.snd) - 10, ?_, ?_, ?_, ?_, ?_⟩ <;> rw [heq]
    · show min _ _ ≤ img.h
      omega
    · show min _ _ ≤ img.w
      omega
    · show _ + min _ _ ≤ img.h
      omega
    · show _ + min _ _ ≤ img.w
      omega
    · intro r c
      rfl

/-! ### Counting and extremum helpers for the projection splitter -/

theorem countP_not_eq {α : Type} (p : α → Bool) (l : List α) :
    l.countP (fun a => !p a) = l.length - l.countP p := by
  induction l with
  | nil => rfl
  | cons x xs ih =>
    have hle := List.countP_le_length (p := p) (l := xs)
    rw [List.countP_cons, List.countP_cons, List.length_cons, ih]
    cases hx : p x <;> (simp [hx]; try omega)

theorem countP_range_eq_single (k n : ℕ) (hk : k < n) :
    (List.range n).countP (fun r => decide (r = k)) = 1 := by
  induction n with
  | zero => omega
  | succ n ih =>
    rw [List.range_succ, List.countP_append]
    by_cases h : k < n
    · rw [ih h]
      have : ¬ (n = k) := by omega
      simp [this]
    · have hnk : n = k := by omega
      have hzero : (List.range n).countP (fun r => decide (r = k)) = 0 := by
        rw [List.countP_eq_zero]
        intro a ha
        have := List.mem_range.mp ha
        simp only [decide_eq_true_eq]
        omega
      rw [hzero]
      simp [hnk]

theorem minN_le_of_mem {l : List ℕ} {x : ℕ} (hx : x ∈ l) : minN l ≤ x := by
  cases l with
  | nil => cases hx
  | cons a as =>
    show as.foldl min a ≤ x
    rcases List.mem_cons.mp hx with rfl | hx'
    · exact foldl_min_le as x
    · clear hx
      induction as generalizing a with
      | nil => cases hx'
      | cons b bs ih =>
        rcases List.mem_cons.mp hx' with rfl | hx''
        · exact le_trans (foldl_min_le bs (min a x)) (min_le_right a x)
        · exact ih (min a b) hx''

theorem le_minN {l : List ℕ} {v : ℕ} (hl : l ≠ []) (h : ∀ x ∈ l, v ≤ x) :
    v ≤ minN l := by
  cases l with
  | nil => exact absurd rfl hl
  | cons a as =>
    show v ≤ as.foldl min a
    have ha : v ≤ a := h a (List.mem_cons_self a as)
    have has : ∀ x ∈ as, v ≤ x := fun x hx => h x (List.mem_cons_of_mem a hx)
    clear h hl
    induction as generalizing a with
    | nil => exact ha
    | cons b bs ih =>
      exact ih (min a b) (le_min ha (has b (List.mem_cons_self b bs)))
        (fun x hx => has x (List.mem_cons_of_mem b hx))

theorem le_foldl_max_init (l : List ℕ) : ∀ a : ℕ, a ≤ l.foldl max a := by
  induction l with
  | nil => exact fun a => le_refl a
  | cons x xs ih => exact fun a => le_trans (le_max_left a x) (ih (max a x))

theorem mem_le_foldl_max (l : List ℕ) :
    ∀ (a x : ℕ), x ∈ l → x ≤ l.foldl max a := by
  induction l with
  | nil => intro a x hx; cases hx
  | cons b bs ih =>
    intro a x hx
    rcases List.mem_cons.mp hx with rfl | hx'
    · exact le_trans (le_max_right a x) (le_foldl_max_init bs (max a x))
    · exact ih (max a b) x hx'

theorem foldl_max_le_mem {l : List ℕ} {x : ℕ} (hx : x ∈ l) : x ≤ maxN l := by
  cases l with
  | nil => cases hx
  | cons a as =>
    show x ≤ as.foldl max a
    rcases List.mem_cons.mp hx with rfl | hx'
    · exact le_foldl_max_init as x
    · exact mem_le_foldl_max as a x hx'

theorem maxN_le {l : List ℕ} {v : ℕ} (h : ∀ x ∈ l, x ≤ v) : maxN l ≤ v := by
  cases l with
  | nil => exact Nat.zero_le v
  | cons a as =>
    show as.foldl max a ≤ v
    have ha : a ≤ v := h a (List.mem_cons_self a as)
    have has : ∀ x ∈ as, x ≤ v := fun x hx => h x (List.mem_cons_of_mem a hx)
    clear h
    induction as generalizing a with
    | nil => exact ha
    | cons b bs ih =>
      exact ih (max a b) (max_le ha (has b (List.mem_cons_self b bs)))
        (fun x hx => has x (List.mem_cons_of_mem b hx))

theorem maxN_eq {l : List ℕ} {v : ℕ} (hmem : v ∈ l) (h : ∀ x ∈ l, x ≤ v) :
    maxN l = v :=
  le_antisymm (maxN_le h) (foldl_max_le_mem hmem)

theorem minN_eq {l : List ℕ} {v : ℕ} (hmem : v ∈ l) (h : ∀ x ∈ l, v ≤ x) :
    minN l = v :=
  le_antisymm (minN_le_of_mem hmem) (le_minN (List.ne_nil_of_mem hmem) h)

theorem indexOf_eq_of_getD (l : List ℕ) (j v : ℕ) (hj : j < l.length)
    (hv : l.getD j 0 = v) (hne : ∀ i < j, l.getD i 0 ≠ v) :
    l.indexOf v = j := by
  induction l generalizing j with
  | nil => simp at hj
  | cons a as ih =>
    cases j with
    | zero =>
      simp only [List.getD_cons_zero] at hv
      subst hv
      simp [List.indexOf_cons]
    | succ j' =>
      have ha : a ≠ v := by
        have := hne 0 (Nat.succ_pos j')
        simpa using this
      rw [List.indexOf_cons]
      have hbeq : (a == v) = false := beq_eq_false_iff_ne.mpr ha
      rw [hbeq]
      simp only [cond_false]
      have := ih j' (by simpa using hj) (by simpa using hv)
        (fun i hi => by
          have := hne (i + 1) (by omega)
          simpa using this)
      omega

theorem argminN_eq_of (l : List ℕ) (j v : ℕ) (hj : j < l.length)
    (hv : l.getD j 0 = v) (hearlier : ∀ i < j, v < l.getD i 0)
    (hlow : ∀ x ∈ l, v ≤ x) : argminN l = j := by
  unfold argminN
  have hvm : v ∈ l := by
    rw [← hv]
    rw [List.getD_eq_getElem l 0 hj]
    exact List.getElem_mem hj
  rw [minN_eq hvm hlow]
  exact indexOf_eq_of_getD l j v hj hv
    (fun i hi => ne_of_gt (hearlier i hi))

theorem getD_map_range (f : ℕ → ℕ) (n i : ℕ) (hi : i < n) :
    ((List.range n).map f).getD i 0 = f i := by
  rw [List.getD_eq_getElem _ 0 (by simpa using hi)]
  simp

theorem sum_map_range_const (n b : ℕ) (f : ℕ → ℕ) (hf : ∀ r < n, f r = b) :
    ((List.range n).map f).sum = n * b := by
  induction n with
  | zero => simp
  | succ n ih =>
    rw [List.range_succ, List.map_append, List.sum_append,
      ih (fun r hr => hf r (by omega))]
    simp only [List.map_cons, List.map_nil, List.sum_cons, List.sum_nil]
    rw [hf n (by omega)]
    ring

theorem sum_map_range_single (k a b : ℕ) (f : ℕ → ℕ) :
    ∀ n, k < n → f k = a → (∀ r < n, r ≠ k → f r = b) →
      ((List.range n).map f).sum = (n - 1) * b + a := by
  intro n
  induction n with
  | zero => intro hk _ _; omega
  | succ n ih =>
    intro hk hfk hf
    rw [List.range_succ, List.map_append, List.sum_append]
    simp only [List.map_cons, List.map_nil, List.sum_cons, List.sum_nil]
    by_cases h : k < n
    · rw [ih h hfk (fun r hr hrk => hf r (by omega) hrk), hf n (by omega) (by omega)]
      have hstep : (n - 1) * b + b = n * b := by
        cases n with
        | zero => omega
        | succ m =>
          rw [Nat.succ_sub_one]
          ring
      calc (n - 1) * b + a + (b + 0) = (n - 1) * b + b + a := by ring
        _ = n * b + a := by rw [hstep]
        _ = (n + 1 - 1) * b + a := by rw [Nat.succ_sub_one]
    · have hkn : k = n := by omega
      subst hkn
      rw [sum_map_range_const k b f (fun r hr => hf r (by omega) (by omega)), hfk]
      rw [Nat.add_zero, Nat.succ_sub_one]

/-! ### The projection splitter: spec equivalence and output bound -/

theorem pieceBoxes_step {Cnt : Type} (ops : CvOps Cnt) (shift : ℚ → Quad → Quad)
    (acc : List Quad) (piece : Mask × ℚ) :
    (match maxByArea ops (ops.contours piece.1) with
      | none => acc
      | some c =>
        if ops.area c < 5000 then acc
        else acc ++ [shift piece.2 (ops.boxPts c)]) =
      (match halfBoxSpec ops shift piece with
        | none => acc
        | some b => acc ++ [b]) := by
  unfold halfBoxSpec
  cases maxByArea ops (ops.contours piece.1) with
  | none => rfl
  | some c =>
    dsimp only
    by_cases h : ops.area c < 5000
    · rw [if_pos h, if_neg (not_le.mpr h)]
    · rw [if_neg h, if_pos (not_lt.mp h)]

theorem pieceBoxes_eq_filterMap {Cnt : Type} (ops : CvOps Cnt)
    (shift : ℚ → Quad → Quad) (pieces : List (Mask × ℚ)) :
    pieceBoxes ops shift pieces = pieces.filterMap (halfBoxSpec ops shift) := by
  suffices h : ∀ (ps : List (Mask × ℚ)) (acc : List Quad),
      ps.foldl (fun acc piece =>
        match maxByArea ops (ops.contours piece.1) with
        | none => acc
        | some c =>
          if ops.area c < 5000 then acc
          else acc ++ [shift piece.2 (ops.boxPts c)]) acc =
        acc ++ ps.filterMap (halfBoxSpec ops shift) by
    simpa using h pieces []
  intro ps
  induction ps with
  | nil => intro acc; simp
  | cons p ps ih =>
    intro acc
    rw [List.foldl_cons, pieceBoxes_step ops shift acc p]
    cases hp : halfBoxSpec ops shift p with
    | none => rw [ih acc, List.filterMap_cons, hp]
    | some b =>
      rw [ih (acc ++ [b]), List.filterMap_cons, hp, List.append_assoc,
        List.singleton_append]

theorem ratio_iff (s M : ℕ) : ((s : ℚ) < 0.2 * (M : ℚ)) ↔ 5 * s < M := by
  rw [show (0.2 : ℚ) = 1 / 5 by norm_num,
    show (1 / 5 : ℚ) * (M : ℚ) = (M : ℚ) / 5 by ring,
    lt_div_iff₀ (by norm_num : (0 : ℚ) < 5)]
  constructor
  · intro h
    have h' : ((5 * s : ℕ) : ℚ) < (M : ℚ) := by push_cast; linarith
    exact_mod_cast h'
  · intro h
    have h' : ((5 * s : ℕ) : ℚ) < (M : ℚ) := by exact_mod_cast h
    push_cast at h'
    linarith

/-- C5: `_split_component_by_projection` computes exactly the algorithm the
spec describes: per-column background sums, the first column attaining the
minimum, a vertical split exactly when the maximum is positive and the
minimum is below 20% of it, each half contributing a box only when its
largest contour reaches 5000 px² (the right half shifted back by the split
column), and — whenever the vertical split yields at most one box — the
identical procedure repeated along rows. -/
theorem split_component_matches_spec {Cnt : Type} (ops : CvOps Cnt) (m : Mask) :
    _split_component_by_projection ops m = split_component_spec ops m := by
  simp only [_split_component_by_projection, split_component_spec,
    pieceBoxes_eq_filterMap]
  rw [if_congr (and_congr_right fun _ => ratio_iff _ _) rfl rfl,
    if_congr (and_congr_right fun _ => ratio_iff _ _) rfl rfl]

/-- C2 counterexample helper: the output of one split direction never has
more than two boxes. -/
theorem splitDir_len_le {Cnt : Type} (ops : CvOps Cnt)
    (shift : ℚ → Quad → Quad) (cond : Prop) [Decidable cond]
    (p1 p2 : Mask × ℚ) :
    (if cond then pieceBoxes ops shift [p1, p2] else []).length ≤ 2 := by
  split
  · rw [pieceBoxes_eq_filterMap, length_filterMap_eq_countP]
    exact le_trans (List.countP_le_length _) (by simp)
  · simp

theorem split_append_len (bv bh : List Quad) (hbv : bv.length ≤ 2)
    (hbh : bh.length ≤ 2) :
    (if bv.length ≤ 1 then bv ++ bh else bv).length ≤ 3 := by
  split
  next h =>
    rw [List.length_append]
    omega
  next h => omega

/-- C2 (amended): `_split_component_by_projection` returns at most three
boxes: the vertical attempt contributes at most two, and when it yields at
most one the horizontal attempt can append up to two more. -/
theorem split_component_at_most_three {Cnt : Type} (ops : CvOps Cnt)
    (m : Mask) : (_split_component_by_projection ops m).length ≤ 3 := by
  simp only [_split_component_by_projection]
  exact split_append_len _ _
    (splitDir_len_le ops shiftQuadX _ _ _)
    (splitDir_len_le ops shiftQuadY _ _ _)

/-! ### Evaluation of the projection splitter on the cross-shaped mask -/

theorem crossMask_colSum_strip (c : ℕ) (h1 : 1 ≤ c) (h2 : c ≤ 25) :
    colSum crossMask c = 0 := by
  unfold colSum
  have hz : ∀ r ∈ List.range crossMask.h, ¬ ((!crossMask.px r c) = true) := by
    intro r _
    simp [crossMask, h1, h2]
  rw [List.countP_eq_zero.mpr hz, Nat.mul_zero]

theorem crossMask_colSum_edge (c : ℕ) (h : ¬ (1 ≤ c ∧ c ≤ 25)) :
    colSum crossMask c = 127245 := by
  unfold colSum
  have hcongr : ∀ r ∈ List.range crossMask.h,
      ((!crossMask.px r c) = true ↔ (!(decide (r = 250))) = true) := by
    intro r _
    simp only [crossMask, Bool.not_or, Bool.and_eq_true, Bool.not_eq_true',
      decide_eq_false_iff_not]
    omega
  rw [List.countP_congr hcongr, countP_not_eq, List.length_range,
    countP_range_eq_single 250 crossMask.h (by norm_num [crossMask])]
  norm_num [crossMask]

theorem crossMask_rowSum_mid : rowSum crossMask 250 = 0 := by
  unfold rowSum
  have hz : ∀ c ∈ List.range crossMask.w, ¬ ((!crossMask.px 250 c) = true) := by
    intro c _
    simp [crossMask]
  rw [List.countP_eq_zero.mpr hz, Nat.mul_zero]

theorem crossMask_rowSum_other (r : ℕ) (h : r ≠ 250) :
    rowSum crossMask r = 510 := by
  unfold rowSum
  have hcongr : ∀ c ∈ List.range crossMask.w,
      ((!crossMask.px r c) = true ↔ (!(decide (1 ≤ c ∧ c ≤ 25))) = true) := by
    intro c _
    simp [crossMask, h]
  rw [List.countP_congr hcongr]
  have : (List.range crossMask.w).countP (fun c => !(decide (1 ≤ c ∧ c ≤ 25))) = 2 := by
    decide
  rw [this]

theorem crossMask_colSums : colSums crossMask = (List.range 27).map (colSum crossMask) := rfl

theorem crossMask_rowSums : rowSums crossMask = (List.range 500).map (rowSum crossMask) := rfl

theorem crossMask_colSums_argmin : argminN (colSums crossMask) = 1 := by
  apply argminN_eq_of _ 1 0
  · rw [crossMask_colSums]
    simp
  · rw [crossMask_colSums, getD_map_range _ _ 1 (by norm_num)]
    exact crossMask_colSum_strip 1 (by norm_num) (by norm_num)
  · intro i hi
    have hi0 : i = 0 := by omega
    subst hi0
    rw [crossMask_colSums, getD_map_range _ _ 0 (by norm_num),
      crossMask_colSum_edge 0 (by omega)]
    norm_num
  · intro x _
    exact Nat.zero_le x

theorem crossMask_colSums_max : maxN (colSums crossMask) = 127245 := by
  apply maxN_eq
  · rw [crossMask_colSums]
    refine List.mem_map.mpr ⟨0, by simp, ?_⟩
    exact crossMask_colSum_edge 0 (by omega)
  · intro x hx
    rw [crossMask_colSums] at hx
    obtain ⟨c, _, rfl⟩ := List.mem_map.mp hx
    by_cases hc : 1 ≤ c ∧ c ≤ 25
    · rw [crossMask_colSum_strip c hc.1 hc.2]
      exact Nat.zero_le _
    · rw [crossMask_colSum_edge c hc]

theorem crossMask_colSums_getD : (colSums crossMask).getD 1 0 = 0 := by
  rw [crossMask_colSums, getD_map_range _ _ 1 (by norm_num)]
  exact crossMask_colSum_strip 1 (by norm_num) (by norm_num)

theorem crossMask_rowSums_argmin : argminN (rowSums crossMask) = 250 := by
  apply argminN_eq_of _ 250 0
  · rw [crossMask_rowSums]
    simp
  · rw [crossMask_rowSums, getD_map_range _ _ 250 (by norm_num)]
    exact crossMask_rowSum_mid
  · intro i hi
    rw [crossMask_rowSums, getD_map_range _ _ i (by omega),
      crossMask_rowSum_other i (by omega)]
    norm_num
  · intro x _
    exact Nat.zero_le x

theorem crossMask_rowSums_max : maxN (rowSums crossMask) = 510 := by
  apply maxN_eq
  · rw [crossMask_rowSums]
    refine List.mem_map.mpr ⟨0, by simp, ?_⟩
    exact crossMask_rowSum_other 0 (by omega)
  · intro x hx
    rw [crossMask_rowSums] at hx
    obtain ⟨r, _, rfl⟩ := List.mem_map.mp hx
    by_cases hr : r = 250
    · subst hr
      rw [crossMask_rowSum_mid]
      exact Nat.zero_le _
    · rw [crossMask_rowSum_other r hr]

theorem crossMask_rowSums_getD : (rowSums crossMask).getD 250 0 = 0 := by
  rw [crossMask_rowSums, getD_map_range _ _ 250 (by norm_num)]
  exact crossMask_rowSum_mid

theorem fg_left : fgCount (leftMask crossMask 1) = 1 := by
  unfold fgCount
  rw [show (leftMask crossMask 1).h = 500 from rfl,
    show (leftMask crossMask 1).w = 1 from rfl]
  rw [sum_map_range_single 250 1 0
    (fun r => (List.range 1).countP (fun c => (leftMask crossMask 1).px r c)) 500
    (by norm_num) (by decide)
    (fun r hr hrne => List.countP_eq_zero.mpr (fun c hc => by
      have hc0 : c = 0 := by simpa using hc
      subst hc0
      simp [leftMask, crossMask, hrne]))]

theorem fg_right : fgCount (rightMask crossMask 1) = 12501 := by
  unfold fgCount
  rw [show (rightMask crossMask 1).h = 500 from rfl,
    show (rightMask crossMask 1).w = 26 from rfl]
  rw [sum_map_range_single 250 26 25
    (fun r => (List.range 26).countP (fun c => (rightMask crossMask 1).px r c)) 500
    (by norm_num) (by decide)
    (fun r hr hrne => by
      show (List.range 26).countP (fun c => (rightMask crossMask 1).px r c) = 25
      have hcongr : ∀ c ∈ List.range 26,
          ((rightMask crossMask 1).px r c = true ↔
            (decide (1 ≤ c + 1 ∧ c + 1 ≤ 25)) = true) := by
        intro c _
        simp only [rightMask, crossMask, Bool.or_eq_true, decide_eq_true_eq]
        omega
      rw [List.countP_congr hcongr]
      decide)]

theorem fg_top : fgCount (topMask crossMask 250) = 6250 := by
  unfold fgCount
  rw [show (topMask crossMask 250).h = 250 from rfl,
    show (topMask crossMask 250).w = 27 from rfl]
  rw [sum_map_range_const 250 25
    (fun r => (List.range 27).countP (fun c => (topMask crossMask 250).px r c))
    (fun r hr => by
      show (List.range 27).countP (fun c => (topMask crossMask 250).px r c) = 25
      have hcongr : ∀ c ∈ List.range 27,
          ((topMask crossMask 250).px r c = true ↔
            (decide (1 ≤ c ∧ c ≤ 25)) = true) := by
        intro c _
        simp only [topMask, crossMask, Bool.or_eq_true, decide_eq_true_eq]
        omega
      rw [List.countP_congr hcongr]
      decide)]

theorem fg_bot : fgCount (botMask crossMask 250) = 6252 := by
  unfold fgCount
  rw [show (botMask crossMask 250).h = 250 from rfl,
    show (botMask crossMask 250).w = 27 from rfl]
  rw [sum_map_range_single 0 27 25
    (fun r => (List.range 27).countP (fun c => (botMask crossMask 250).px r c)) 250
    (by norm_num) (by decide)
    (fun r hr hrne => by
      show (List.range 27).countP (fun c => (botMask crossMask 250).px r c) = 25
      have hcongr : ∀ c ∈ List.range 27,
          ((botMask crossMask 250).px r c = true ↔
            (decide (1 ≤ c ∧ c ≤ 25)) = true) := by
        intro c _
        simp only [botMask, crossMask, Bool.or_eq_true, decide_eq_true_eq]
        omega
      rw [List.countP_congr hcongr]
      decide)]

theorem pixelCvOps_contours (m : Mask) :
    pixelCvOps.contours m = if fgCount m = 0 then [] else [m] := rfl

theorem pixelCvOps_area (m : Mask) : pixelCvOps.area m = (fgCount m : ℚ) := rfl

theorem maxByArea_singleton {Cnt : Type} (ops : CvOps Cnt) (x : Cnt) :
    maxByArea ops [x] = some x := rfl

theorem halfBox_left :
    halfBoxSpec pixelCvOps shiftQuadX (leftMask crossMask 1, (0 : ℚ)) = none := by
  unfold halfBoxSpec
  dsimp only
  rw [pixelCvOps_contours, fg_left, if_neg (by norm_num : ¬ (1 = 0)),
    maxByArea_singleton]
  dsimp only
  rw [pixelCvOps_area, fg_left, if_neg (by norm_num : ¬ ((5000 : ℚ) ≤ ((1 : ℕ) : ℚ)))]

theorem halfBox_right :
    halfBoxSpec pixelCvOps shiftQuadX (rightMask crossMask 1, ((1 : ℕ) : ℚ)) =
      some (shiftQuadX ((1 : ℕ) : ℚ) (pixelCvOps.boxPts (rightMask crossMask 1))) := by
  unfold halfBoxSpec
  dsimp only
  rw [pixelCvOps_contours, fg_right, if_neg (by norm_num : ¬ (12501 = 0)),
    maxByArea_singleton]
  dsimp only
  rw [pixelCvOps_area, fg_right,
    if_pos (by norm_num : (5000 : ℚ) ≤ ((12501 : ℕ) : ℚ))]

theorem halfBox_top :
    halfBoxSpec pixelCvOps shiftQuadY (topMask crossMask 250, (0 : ℚ)) =
      some (shiftQuadY (0 : ℚ) (pixelCvOps.boxPts (topMask crossMask 250))) := by
  unfold halfBoxSpec
  dsimp only
  rw [pixelCvOps_contours, fg_top, if_neg (by norm_num : ¬ (6250 = 0)),
    maxByArea_singleton]
  dsimp only
  rw [pixelCvOps_area, fg_top,
    if_pos (by norm_num : (5000 : ℚ) ≤ ((6250 : ℕ) : ℚ))]

theorem halfBox_bot :
    halfBoxSpec pixelCvOps shiftQuadY (botMask crossMask 250, ((250 : ℕ) : ℚ)) =
      some (shiftQuadY ((250 : ℕ) : ℚ) (pixelCvOps.boxPts (botMask crossMask 250))) := by
  unfold halfBoxSpec
  dsimp only
  rw [pixelCvOps_contours, fg_bot, if_neg (by norm_num : ¬ (6252 = 0)),
    maxByArea_singleton]
  dsimp only
  rw [pixelCvOps_area, fg_bot,
    if_pos (by norm_num : (5000 : ℚ) ≤ ((6252 : ℕ) : ℚ))]

/-- C2 counterexample: on the cross-shaped mask (a full-height strip over
columns 1–25 plus a full-width row at 250), the vertical split yields one
surviving box (the left sliver is under 5000 px²), so the horizontal split
also runs and contributes two more — the splitter returns three boxes, not
at most two. -/
theorem split_component_three_boxes_counterexample :
    (_split_component_by_projection pixelCvOps crossMask).length = 3 := by
  simp only [_split_component_by_projection, pieceBoxes_eq_filterMap]
  rw [crossMask_colSums_argmin, crossMask_colSums_max, crossMask_colSums_getD,
    crossMask_rowSums_argmin, crossMask_rowSums_max, crossMask_rowSums_getD]
  rw [if_pos (by norm_num : (0 : ℕ) < 127245 ∧ (((0 : ℕ) : ℚ) < 0.2 * ((127245 : ℕ) : ℚ)))]
  rw [if_pos (by norm_num : (0 : ℕ) < 510 ∧ (((0 : ℕ) : ℚ) < 0.2 * ((510 : ℕ) : ℚ)))]
  rw [List.filterMap_cons, halfBox_left, List.filterMap_cons, halfBox_right,
    List.filterMap_nil, List.filterMap_cons, halfBox_top, List.filterMap_cons,
    halfBox_bot, List.filterMap_nil]
  rfl

end ScanSplitter
